import Mathlib

/-!
Shallow embedding of `sum_squares.py`: decomposition of a natural number into
sums of 2, 3 or 4 positive squares, with number-theoretic feasibility filters
and an infeasibility cache, together with proofs of the specification claims.

Tuples of summands are modelled as `List Nat` (Python tuples), decomposition
sets as `List (List Nat)` (Python lists of tuples, in emission order).
-/


/-- Integer square root, `math.isqrt`: largest `k ≤ fuel` with `k * k ≤ n`
(structural recursion on the fuel so that the kernel can evaluate it). -/
def isqrtAux (n : Nat) : Nat → Nat
  | 0 => 0
  | k + 1 => if (k + 1) * (k + 1) ≤ n then k + 1 else isqrtAux n k

/-- Integer square root, `math.isqrt(n)` = floor of the real square root. -/
def isqrt (n : Nat) : Nat := isqrtAux n n

/-- The descending range `range(a, b - 1, -1)` of Python: `[a, a-1, ..., b]`,
empty when `a < b`. -/
def countdown (a b : Nat) : List Nat := (List.range' b (a + 1 - b)).reverse

/-- Primality test by trial division, modelling the fact that `factorint`
(the external factorization oracle) keys its result by the primes. -/
def isPrime (p : Nat) : Bool :=
  decide (2 ≤ p) && (List.range p).all fun d => decide (d < 2) || decide (p % d ≠ 0)

/-- Multiplicity of `p` in `m` by repeated exact division (fuel-based so that
the kernel can evaluate it; `fuel = m` always suffices). -/
def multAux (p : Nat) : Nat → Nat → Nat
  | 0, _ => 0
  | fuel + 1, m => if 2 ≤ p ∧ 0 < m ∧ m % p = 0 then multAux p fuel (m / p) + 1 else 0

/-- Exponent of `p` in the prime factorization of `m`, as `factorint` reports it. -/
def padicMult (p m : Nat) : Nat := multAux p m m

/-- The feasibility filter of `decomposeBy2` taken from the sum-of-two-squares
theorem: `num` has some prime factor `p ≡ 3 (mod 4)` with odd exponent.
Models the loop over `factorint(num).items()`. -/
def hasBadPrime (num : Nat) : Bool :=
  (List.range (num + 1)).any fun p =>
    isPrime p && decide (p % 4 = 3) && decide (padicMult p num % 2 = 1)

/-- One pass of the loop `while m & 3 == 0: m >>= 2` with explicit fuel
(the loop runs only on positive `m`, where `fuel = m` steps always suffice). -/
def strip4Aux : Nat → Nat → Nat
  | 0, m => m
  | fuel + 1, m => if m % 4 = 0 ∧ m ≠ 0 then strip4Aux fuel (m / 4) else m

/-- Result of stripping all factors 4 from `m`, the `m` computed by
`decomposeBy3` before the `m & 7 == 7` test. -/
def strip4 (m : Nat) : Nat := strip4Aux m m

/-- The clamp `if a_max != 0 and a > a_max: a = a_max` applied to the initial
candidate `a`; `a_max = 0` is the sentinel for "no upper bound". -/
def clampTop (a0 a_max : Nat) : Nat := if a_max ≠ 0 ∧ a0 > a_max then a_max else a0

/-- Lower search bound of `decomposeBy2`: `isqrt((num >> 1) - 1) + 1`. -/
def lowerBound2 (num : Nat) : Nat := isqrt (num / 2 - 1) + 1

/-- Lower search bound of `decomposeBy3`:
`isqrt(num // 3 - 1) + 1 if num >= 3 else 1`. -/
def lowerBound3 (num : Nat) : Nat := if 3 ≤ num then isqrt (num / 3 - 1) + 1 else 1

/-- Lower search bound of `decomposeBy4`:
`isqrt((num >> 2) - 1) + 1 if num >= 4 else 1`. -/
def lowerBound4 (num : Nat) : Nat := if 4 ≤ num then isqrt (num / 4 - 1) + 1 else 1

/-- Loop body of `decomposeBy2` at candidate `i`: the tuples appended to `res`
in this iteration (`n == 0` emits `(i,)`, a square remainder emits `(i, s)`). -/
def body2 (num i : Nat) : List (List Nat) :=
  let n := num - i * i
  if n = 0 then [[i]]
  else
    let s := isqrt n
    if s * s = n then [[i, s]] else []

/-- `decomposeBy2(num, a_max)` of `sum_squares.py` without the `noSum2sq`
cache (the cached variant is `decomposeBy2M` below): all decompositions of
`num` as a sum of two squares with nonzero summands stored, leading summand
at most `a_max` when `a_max ≠ 0`. -/
def decomposeBy2 (num a_max : Nat) : List (List Nat) :=
  if num % 4 = 3 then []
  else if num = 0 then [[]]
  else if num = 1 then [[1]]
  else if hasBadPrime num then []
  else (countdown (clampTop (isqrt num) a_max) (lowerBound2 num)).flatMap (body2 num)

/-- Loop body of `decomposeBy3` at candidate `i`: each 2-square decomposition
`s` of the remainder becomes `(i, *s)`. -/
def body3 (num i : Nat) : List (List Nat) :=
  (decomposeBy2 (num - i * i) i).map fun s => i :: s

/-- `decomposeBy3(num, a_max)` of `sum_squares.py` (cache-free variant). -/
def decomposeBy3 (num a_max : Nat) : List (List Nat) :=
  if num = 0 then [[]]
  else if strip4 num % 8 = 7 then []
  else (countdown (clampTop (isqrt num) a_max) (lowerBound3 num)).flatMap (body3 num)

/-- Loop body of `decomposeBy4` at candidate `i`: each 3-square decomposition
`s` of the remainder becomes `(i, *s)`. -/
def body4 (num i : Nat) : List (List Nat) :=
  (decomposeBy3 (num - i * i) i).map fun s => i :: s

/-- `decomposeBy4(num, a_max)` of `sum_squares.py` (cache-free variant). -/
def decomposeBy4 (num a_max : Nat) : List (List Nat) :=
  (countdown (clampTop (isqrt num) a_max) (lowerBound4 num)).flatMap (body4 num)

/-- Sum of the squares of the entries of a decomposition tuple. -/
def sumSq (d : List Nat) : Nat := (d.map fun x => x * x).sum

/-- The soundness invariant of a decomposition of `num` at arity `K`:
exact sum of squares, non-ascending order, positive entries, length at most `K`. -/
def Sound (K num : Nat) (d : List Nat) : Prop :=
  sumSq d = num ∧ d.Sorted (· ≥ ·) ∧ (∀ x ∈ d, 0 < x) ∧ d.length ≤ K

/-- The tuple stored by the search for a two-square representation
`x² + y²` with `x ≥ y`: zero summands are dropped. -/
def tup2 (x y : Nat) : List Nat := if y = 0 then (if x = 0 then [] else [x]) else [x, y]

/-- The tuple stored for a three-square representation `x² + y² + z²`,
`x ≥ y ≥ z`. -/
def tup3 (x y z : Nat) : List Nat := if x = 0 then [] else x :: tup2 y z

/-- The tuple stored for a four-square representation `w² + x² + y² + z²`,
`w ≥ x ≥ y ≥ z`. -/
def tup4 (w x y z : Nat) : List Nat := if w = 0 then [] else w :: tup3 x y z

/-- `decomposeBy2` with the clamp dropped (no upper bound at all): used to state
that `a_max = 0` disables the bound rather than clamping to `0`. -/
def decomposeBy2NB (num : Nat) : List (List Nat) :=
  if num % 4 = 3 then []
  else if num = 0 then [[]]
  else if num = 1 then [[1]]
  else if hasBadPrime num then []
  else (countdown (isqrt num) (lowerBound2 num)).flatMap (body2 num)

/-- `decomposeBy3` with the clamp dropped. -/
def decomposeBy3NB (num : Nat) : List (List Nat) :=
  if num = 0 then [[]]
  else if strip4 num % 8 = 7 then []
  else (countdown (isqrt num) (lowerBound3 num)).flatMap (body3 num)

/-- `decomposeBy4` with the clamp dropped. -/
def decomposeBy4NB (num : Nat) : List (List Nat) :=
  (countdown (isqrt num) (lowerBound4 num)).flatMap (body4 num)

/-- The invariant of the `noSum2sq` cache: it only ever contains integers that
admit no representation as a sum of two squares. -/
def CacheOK (cache : List Nat) : Prop := ∀ n ∈ cache, ¬ ∃ x y, x * x + y * y = n

/-- `decomposeBy2` with the `noSum2sq` cache made explicit: the pair is
(returned list, cache after the call).  The cache is consulted after the
`num & 3 == 3` test and extended when the factorization test rejects. -/
def decomposeBy2M (num a_max : Nat) (cache : List Nat) : List (List Nat) × List Nat :=
  if num % 4 = 3 then ([], cache)
  else if num ∈ cache then ([], cache)
  else if num = 0 then ([[]], cache)
  else if num = 1 then ([[1]], cache)
  else if hasBadPrime num then ([], num :: cache)
  else ((countdown (clampTop (isqrt num) a_max) (lowerBound2 num)).flatMap (body2 num), cache)

/-- `decomposeBy3` with the cache made explicit, threaded through the loop. -/
def decomposeBy3M (num a_max : Nat) (cache : List Nat) : List (List Nat) × List Nat :=
  if num = 0 then ([[]], cache)
  else if strip4 num % 8 = 7 then ([], cache)
  else
    (countdown (clampTop (isqrt num) a_max) (lowerBound3 num)).foldl
      (fun acc i =>
        let r := decomposeBy2M (num - i * i) i acc.2
        (acc.1 ++ r.1.map fun s => i :: s, r.2))
      ([], cache)

/-- `decomposeBy4` with the cache made explicit, threaded through the loop. -/
def decomposeBy4M (num a_max : Nat) (cache : List Nat) : List (List Nat) × List Nat :=
  (countdown (clampTop (isqrt num) a_max) (lowerBound4 num)).foldl
    (fun acc i =>
      let r := decomposeBy3M (num - i * i) i acc.2
      (acc.1 ++ r.1.map fun s => i :: s, r.2))
    ([], cache)

/-- Cache states reachable from the initial empty `noSum2sq` by any sequence of
calls to the three decomposers. -/
inductive Reachable : List Nat → Prop
  | init : Reachable []
  | step2 (num a_max : Nat) {c : List Nat} : Reachable c → Reachable (decomposeBy2M num a_max c).2
  | step3 (num a_max : Nat) {c : List Nat} : Reachable c → Reachable (decomposeBy3M num a_max c).2
  | step4 (num a_max : Nat) {c : List Nat} : Reachable c → Reachable (decomposeBy4M num a_max c).2

/-- `math.isqrt` on a Python `int`: raises (here `none`) on negative input. -/
def isqrtChecked (x : Int) : Option Nat := if x < 0 then none else some (isqrt x.toNat)

/-- Run a fallible body over the candidate list, concatenating the emitted
tuples, failing if any iteration fails. -/
def collectChecked (f : Nat → Option (List (List Nat))) : List Nat → Option (List (List Nat))
  | [] => some []
  | i :: is =>
    match f i, collectChecked f is with
    | some r, some rest => some (r ++ rest)
    | _, _ => none

/-- `decomposeBy2` with the argument of the `isqrt` in the lower-bound
computation evaluated in `Int` as Python does, failing if it is negative. -/
def decomposeBy2Checked (num a_max : Nat) : Option (List (List Nat)) :=
  if num % 4 = 3 then some []
  else if num = 0 then some [[]]
  else if num = 1 then some [[1]]
  else if hasBadPrime num then some []
  else
    (isqrtChecked ((num : Int) / 2 - 1)).map fun r =>
      (countdown (clampTop (isqrt num) a_max) (r + 1)).flatMap (body2 num)

/-- `decomposeBy3` with the `isqrt` arguments evaluated in `Int`. -/
def decomposeBy3Checked (num a_max : Nat) : Option (List (List Nat)) :=
  if num = 0 then some [[]]
  else if strip4 num % 8 = 7 then some []
  else
    (if 3 ≤ num then (isqrtChecked ((num : Int) / 3 - 1)).map (· + 1) else some 1).bind fun b =>
      collectChecked (fun i => (decomposeBy2Checked (num - i * i) i).map (List.map fun s => i :: s))
        (countdown (clampTop (isqrt num) a_max) b)

/-- `decomposeBy4` with the `isqrt` arguments evaluated in `Int`. -/
def decomposeBy4Checked (num a_max : Nat) : Option (List (List Nat)) :=
  (if 4 ≤ num then (isqrtChecked ((num : Int) / 4 - 1)).map (· + 1) else some 1).bind fun b =>
    collectChecked (fun i => (decomposeBy3Checked (num - i * i) i).map (List.map fun s => i :: s))
      (countdown (clampTop (isqrt num) a_max) b)

theorem isqrtAux_eq (n : Nat) : ∀ k, Nat.sqrt n ≤ k → isqrtAux n k = Nat.sqrt n := by
  intro k
  induction k with
  | zero => intro h; simpa [isqrtAux] using (Nat.le_antisymm h (Nat.zero_le _)).symm
  | succ k ih =>
    intro h
    by_cases hk : (k + 1) * (k + 1) ≤ n
    · have h1 : k + 1 ≤ Nat.sqrt n := Nat.le_sqrt.mpr hk
      rw [isqrtAux, if_pos hk]
      exact Nat.le_antisymm h1 h
    · have h2 : Nat.sqrt n < k + 1 := by
        by_contra hc
        exact hk (Nat.le_trans (Nat.mul_le_mul (Nat.le_of_not_lt hc) (Nat.le_of_not_lt hc))
          (Nat.sqrt_le n))
      simp only [isqrtAux, hk, if_false]
      exact ih (Nat.lt_succ_iff.mp h2)

theorem isqrt_eq (n : Nat) : isqrt n = Nat.sqrt n :=
  isqrtAux_eq n n (Nat.sqrt_le_self n)

theorem mem_countdown {a b i : Nat} : i ∈ countdown a b ↔ b ≤ i ∧ i ≤ a := by
  unfold countdown
  rw [List.mem_reverse, List.mem_range'_1]
  omega

theorem countdown_nodup (a b : Nat) : (countdown a b).Nodup := by
  unfold countdown
  exact List.nodup_reverse.mpr (List.nodup_range' b (a + 1 - b))

theorem isPrime_iff {p : Nat} : isPrime p = true ↔ p.Prime := by
  rw [Nat.prime_def_lt]
  simp only [isPrime, Bool.and_eq_true, List.all_eq_true, Bool.or_eq_true,
    decide_eq_true_eq, List.mem_range]
  constructor
  · rintro ⟨h2, hd⟩
    refine ⟨h2, fun m hm hdvd => ?_⟩
    rcases hd m hm with h | h
    · interval_cases m
      · exact absurd (Nat.eq_zero_of_zero_dvd hdvd) (by omega)
      · rfl
    · exact absurd (Nat.dvd_iff_mod_eq_zero.mp hdvd) h
  · rintro ⟨h2, hd⟩
    refine ⟨h2, fun d hdp => ?_⟩
    by_cases hd2 : d < 2
    · exact Or.inl hd2
    · refine Or.inr fun hmod => ?_
      have : d ∣ p := Nat.dvd_iff_mod_eq_zero.mpr hmod
      have := hd d hdp this
      omega

theorem multAux_eq {p : Nat} (hp : p.Prime) :
    ∀ fuel m, 0 < m → m ≤ fuel → multAux p fuel m = m.factorization p := by
  intro fuel
  induction fuel with
  | zero => intro m hm hle; omega
  | succ fuel ih =>
    intro m hm hle
    by_cases hdvd : p ∣ m
    · have hmod : m % p = 0 := Nat.dvd_iff_mod_eq_zero.mp hdvd
      have hcond : 2 ≤ p ∧ 0 < m ∧ m % p = 0 := ⟨hp.two_le, hm, hmod⟩
      have hdiv_pos : 0 < m / p := Nat.div_pos (Nat.le_of_dvd hm hdvd) (by have := hp.two_le; omega)
      have hdiv_lt : m / p < m := Nat.div_lt_self hm hp.one_lt
      rw [multAux, if_pos hcond, ih (m / p) hdiv_pos (by omega)]
      have hmul : p * (m / p) = m := Nat.mul_div_cancel' hdvd
      have hfac : m.factorization p = p.factorization p + (m / p).factorization p := by
        conv_lhs => rw [← hmul]
        rw [Nat.factorization_mul hp.ne_zero (by omega)]
        rfl
      rw [hfac, hp.factorization_self]
      omega
    · have hmod : ¬ m % p = 0 := fun hc => hdvd (Nat.dvd_iff_mod_eq_zero.mpr hc)
      rw [multAux, if_neg (by tauto), Nat.factorization_eq_zero_of_not_dvd hdvd]

theorem padicMult_eq {p m : Nat} (hp : p.Prime) (hm : 0 < m) :
    padicMult p m = m.factorization p :=
  multAux_eq hp m m hm le_rfl

theorem hasBadPrime_iff {num : Nat} (h : 0 < num) :
    hasBadPrime num = true ↔ ∃ p, p.Prime ∧ p % 4 = 3 ∧ Odd (num.factorization p) := by
  simp only [hasBadPrime, List.any_eq_true, Bool.and_eq_true, decide_eq_true_eq,
    List.mem_range]
  constructor
  · rintro ⟨p, _, ⟨hpp, hp4⟩, hodd⟩
    have hp := isPrime_iff.mp hpp
    refine ⟨p, hp, hp4, ?_⟩
    rw [padicMult_eq hp h] at hodd
    exact Nat.odd_iff.mpr hodd
  · rintro ⟨p, hp, hp4, hodd⟩
    have hpos : 0 < num.factorization p := by
      rcases hodd with ⟨t, ht⟩; omega
    have hdvd : p ∣ num := Nat.dvd_of_factorization_pos (by omega)
    refine ⟨p, by have := Nat.le_of_dvd h hdvd; omega, ⟨isPrime_iff.mpr hp, hp4⟩, ?_⟩
    rw [padicMult_eq hp h]
    exact Nat.odd_iff.mp hodd

theorem strip4Aux_congr : ∀ f g m, 0 < m → m ≤ f + 1 → m ≤ g + 1 →
    strip4Aux f m = strip4Aux g m := by
  intro f
  induction f with
  | zero =>
    intro g m hm hf _
    have : m = 1 := by omega
    subst this
    cases g with
    | zero => rfl
    | succ g => simp [strip4Aux]
  | succ f ih =>
    intro g m hm hf hg
    by_cases h4 : m % 4 = 0
    · have hm4 : 4 ≤ m := by omega
      have hg4 : 3 ≤ g := by omega
      obtain ⟨h, rfl⟩ : ∃ h, g = h + 1 := ⟨g - 1, by omega⟩
      simp only [strip4Aux, if_pos (by omega : m % 4 = 0 ∧ m ≠ 0)]
      exact ih h (m / 4) (by omega) (by omega) (by omega)
    · cases g with
      | zero => simp only [strip4Aux, if_neg (by omega : ¬ (m % 4 = 0 ∧ m ≠ 0))]
      | succ g =>
        simp only [strip4Aux, if_neg (by omega : ¬ (m % 4 = 0 ∧ m ≠ 0))]

theorem strip4_not_dvd {m : Nat} (hm : 0 < m) (h4 : m % 4 ≠ 0) : strip4 m = m := by
  unfold strip4
  obtain ⟨f, rfl⟩ : ∃ f, m = f + 1 := ⟨m - 1, by omega⟩
  simp [strip4Aux, h4]

theorem strip4_four_mul {m : Nat} (hm : 0 < m) : strip4 (4 * m) = strip4 m := by
  unfold strip4
  have h1 : 4 * m = (4 * m - 1) + 1 := by omega
  rw [h1]
  show strip4Aux ((4 * m - 1) + 1) ((4 * m - 1) + 1) = strip4Aux m m
  rw [strip4Aux, if_pos (by omega : ((4 * m - 1) + 1) % 4 = 0 ∧ (4 * m - 1) + 1 ≠ 0)]
  have h2 : ((4 * m - 1) + 1) / 4 = m := by omega
  rw [h2]
  exact strip4Aux_congr (4 * m - 1) m m hm (by omega) (by omega)

theorem strip4_pow_mul {t : Nat} (ht : 0 < t) : ∀ a, strip4 (4 ^ a * t) = strip4 t := by
  intro a
  induction a with
  | zero => simp
  | succ a ih =>
    have h : 4 ^ (a + 1) * t = 4 * (4 ^ a * t) := by ring
    rw [h, strip4_four_mul (by positivity), ih]

theorem strip4_spec {m : Nat} (hm : 0 < m) :
    ∃ a, m = 4 ^ a * strip4 m ∧ strip4 m % 4 ≠ 0 ∧ 0 < strip4 m := by
  induction m using Nat.strong_induction_on with
  | _ m ih =>
    by_cases h4 : m % 4 = 0
    · have hq : m = 4 * (m / 4) := by omega
      have hqpos : 0 < m / 4 := by omega
      obtain ⟨a, h1, h2, h3⟩ := ih (m / 4) (by omega) hqpos
      have hstr : strip4 m = strip4 (m / 4) := by
        conv_lhs => rw [hq]
        exact strip4_four_mul hqpos
      refine ⟨a + 1, ?_, by rw [hstr]; exact h2, by rw [hstr]; exact h3⟩
      rw [hstr]
      calc m = 4 * (m / 4) := hq
        _ = 4 * (4 ^ a * strip4 (m / 4)) := by rw [← h1]
        _ = 4 ^ (a + 1) * strip4 (m / 4) := by ring
    · rw [strip4_not_dvd hm h4]
      exact ⟨0, by ring, h4, hm⟩

theorem strip4_mod8_iff {m : Nat} (hm : 0 < m) :
    strip4 m % 8 = 7 ↔ ∃ a b, m = 4 ^ a * (8 * b + 7) := by
  constructor
  · intro h
    obtain ⟨a, h1, _, _⟩ := strip4_spec hm
    refine ⟨a, strip4 m / 8, ?_⟩
    rw [show 8 * (strip4 m / 8) + 7 = strip4 m from by omega]
    exact h1
  · rintro ⟨a, b, rfl⟩
    rw [strip4_pow_mul (by omega) a, strip4_not_dvd (by omega) (by omega)]
    omega

theorem sq_mod_four (x : Nat) :
    (x % 2 = 0 ∧ x * x % 4 = 0) ∨ (x % 2 = 1 ∧ x * x % 4 = 1) := by
  obtain ⟨r, hrlt, hx, hr2⟩ : ∃ r, r < 4 ∧ x * x % 4 = r * r % 4 ∧ r % 2 = x % 2 :=
    ⟨x % 4, Nat.mod_lt x (by norm_num), Nat.mul_mod x x 4, Nat.mod_mod_of_dvd x (by norm_num)⟩
  interval_cases r <;> omega

theorem sq_mod_eight (x : Nat) : x * x % 8 = 0 ∨ x * x % 8 = 1 ∨ x * x % 8 = 4 := by
  obtain ⟨r, hrlt, hx⟩ : ∃ r, r < 8 ∧ x * x % 8 = r * r % 8 :=
    ⟨x % 8, Nat.mod_lt x (by norm_num), Nat.mul_mod x x 8⟩
  interval_cases r <;> omega

theorem two_sq_mod_four {x y num : Nat} (h : x * x + y * y = num) : num % 4 ≠ 3 := by
  have hx := sq_mod_four x
  have hy := sq_mod_four y
  omega

/-- A sum of three squares is never `7` modulo `8`. -/
theorem three_sq_mod_eight {x y z num : Nat} (h : x * x + y * y + z * z = num) :
    num % 8 ≠ 7 := by
  have hx := sq_mod_eight x
  have hy := sq_mod_eight y
  have hz := sq_mod_eight z
  omega

/-- Easy direction of Legendre's three-square theorem: a number of the form
`4^a * (8b + 7)` (detected by the `strip4 _ % 8 = 7` filter) is not a sum of
three squares. -/
theorem strip4_filter_sound {num : Nat} (hnum : 0 < num) (h7 : strip4 num % 8 = 7) :
    ¬ ∃ x y z, x * x + y * y + z * z = num := by
  induction num using Nat.strong_induction_on with
  | _ num ih =>
    rintro ⟨x, y, z, hxyz⟩
    by_cases h4 : num % 4 = 0
    · have hx4 := sq_mod_four x
      have hy4 := sq_mod_four y
      have hz4 := sq_mod_four z
      have hxe : x % 2 = 0 := by omega
      have hye : y % 2 = 0 := by omega
      have hze : z % 2 = 0 := by omega
      obtain ⟨x', rfl⟩ : ∃ t, x = 2 * t := ⟨x / 2, by omega⟩
      obtain ⟨y', rfl⟩ : ∃ t, y = 2 * t := ⟨y / 2, by omega⟩
      obtain ⟨z', rfl⟩ : ∃ t, z = 2 * t := ⟨z / 2, by omega⟩
      have hq : x' * x' + y' * y' + z' * z' = num / 4 := by
        have expand : 2 * x' * (2 * x') + 2 * y' * (2 * y') + 2 * z' * (2 * z')
            = 4 * (x' * x' + y' * y' + z' * z') := by ring
        omega
      have hqpos : 0 < num / 4 := by omega
      have hstr : strip4 (num / 4) % 8 = 7 := by
        have h1 : num = 4 * (num / 4) := by omega
        have h2 : strip4 num = strip4 (num / 4) := by
          conv_lhs => rw [h1]
          exact strip4_four_mul hqpos
        omega
      exact ih (num / 4) (by omega) hqpos hstr ⟨x', y', z', hq⟩
    · rw [strip4_not_dvd hnum h4] at h7
      exact absurd h7 (three_sq_mod_eight hxyz)

theorem sorted_quad_of_list {L : List Nat} (hsort : L.Sorted (· ≤ ·)) (hlen : L.length = 4) :
    ∃ p q r s, L = [p, q, r, s] ∧ p ≤ q ∧ q ≤ r ∧ r ≤ s := by
  rcases L with _ | ⟨p, _ | ⟨q, _ | ⟨r, _ | ⟨s, _ | ⟨e, t⟩⟩⟩⟩⟩
  · simp at hlen
  · simp at hlen
  · simp at hlen
  · simp at hlen
  · rw [List.sorted_cons] at hsort
    obtain ⟨hp, hsort⟩ := hsort
    rw [List.sorted_cons] at hsort
    obtain ⟨hq, hsort⟩ := hsort
    rw [List.sorted_cons] at hsort
    obtain ⟨hr, _⟩ := hsort
    exact ⟨p, q, r, s, rfl, hp q (by simp), hq r (by simp), hr s (by simp)⟩
  · simp at hlen

/-- Sorting a quadruple without changing its sum of squares. -/
theorem exists_sorted_quad (a b c d : Nat) :
    ∃ w x y z, x ≤ w ∧ y ≤ x ∧ z ≤ y ∧
      w * w + x * x + y * y + z * z = a * a + b * b + c * c + d * d := by
  have hperm := List.perm_insertionSort (· ≤ ·) [a, b, c, d]
  have hsort := List.sorted_insertionSort (· ≤ ·) [a, b, c, d]
  have hlen : (List.insertionSort (· ≤ ·) [a, b, c, d]).length = 4 := by
    rw [hperm.length_eq]; rfl
  obtain ⟨p, q, r, s, hl, hpq, hqr, hrs⟩ := sorted_quad_of_list hsort hlen
  have hsum := (hperm.map fun t => t * t).sum_eq
  rw [hl] at hsum
  simp only [List.map_cons, List.map_nil, List.sum_cons, List.sum_nil] at hsum
  exact ⟨s, r, q, p, hrs, hqr, hpq, by omega⟩

theorem clampTop_le_left (a0 a_max : Nat) : clampTop a0 a_max ≤ a0 := by
  unfold clampTop; split_ifs <;> omega

theorem clampTop_le_right (a0 : Nat) {a_max : Nat} (h : a_max ≠ 0) :
    clampTop a0 a_max ≤ a_max := by
  unfold clampTop; split_ifs <;> omega

theorem sumSq_cons (x : Nat) (l : List Nat) : sumSq (x :: l) = x * x + sumSq l := by
  simp [sumSq]

theorem mem_body2 {num i : Nat} {d : List Nat} (hd : d ∈ body2 num i) :
    (num - i * i = 0 ∧ d = [i]) ∨
    (num - i * i ≠ 0 ∧ isqrt (num - i * i) * isqrt (num - i * i) = num - i * i ∧
      d = [i, isqrt (num - i * i)]) := by
  simp only [body2] at hd
  split_ifs at hd with h1 h2
  · simp at hd; exact Or.inl ⟨h1, hd⟩
  · simp at hd; exact Or.inr ⟨h1, h2, hd⟩
  · simp at hd

theorem decomposeBy2_sound {num a_max : Nat} {d : List Nat}
    (hd : d ∈ decomposeBy2 num a_max) :
    Sound 2 num d ∧ (a_max ≠ 0 → ∀ x ∈ d, x ≤ a_max) := by
  unfold decomposeBy2 at hd
  split_ifs at hd with h4 h0 h1 hbad
  · simp at hd
  · simp at hd
    subst hd; subst h0
    exact ⟨⟨rfl, by simp, by simp, by simp⟩, by simp⟩
  · simp at hd
    subst hd; subst h1
    refine ⟨⟨rfl, by simp, by simp, by simp⟩, fun hne x hx => ?_⟩
    simp at hx; omega
  · simp at hd
  · rw [List.mem_flatMap] at hd
    obtain ⟨i, hi, hdi⟩ := hd
    rw [mem_countdown] at hi
    obtain ⟨hib, hia⟩ := hi
    have hile : i ≤ isqrt num := le_trans hia (clampTop_le_left _ _)
    have hisq : i * i ≤ num := by rw [isqrt_eq] at hile; exact Nat.le_sqrt.mp hile
    have hip : 1 ≤ i := by unfold lowerBound2 at hib; omega
    have hhalf : num / 2 ≤ i * i := by
      unfold lowerBound2 at hib
      rw [isqrt_eq] at hib
      have h := Nat.sqrt_lt.mp (show Nat.sqrt (num / 2 - 1) < i from by omega)
      omega
    have hiam : a_max ≠ 0 → i ≤ a_max := fun hne =>
      le_trans hia (clampTop_le_right _ hne)
    rcases mem_body2 hdi with ⟨hn0, rfl⟩ | ⟨hn0, hsq, rfl⟩
    · refine ⟨⟨by simp [sumSq]; omega, by simp, by simp; omega, by simp⟩,
        fun hne x hx => ?_⟩
      simp at hx; subst hx
      exact hiam hne
    · have hssq := hsq
      set s := isqrt (num - i * i) with hs
      have hspos : 1 ≤ s := by
        rcases Nat.eq_zero_or_pos s with h | h
        · rw [h] at hssq; omega
        · exact h
      have hsle : s ≤ i := by
        by_contra hc
        push_neg at hc
        have h1 : (i + 1) * (i + 1) ≤ s * s := Nat.mul_le_mul hc hc
        have h2 : i * i + 2 * i + 1 = (i + 1) * (i + 1) := by ring
        omega
      refine ⟨⟨by simp [sumSq]; omega, ?_, by simp; omega, by simp⟩,
        fun hne x hx => ?_⟩
      · simp [List.sorted_cons]
        exact hsle
      · simp at hx
        rcases hx with rfl | rfl
        · exact hiam hne
        · exact le_trans hsle (hiam hne)

theorem lowerBound3_pos (num : Nat) : 1 ≤ lowerBound3 num := by
  unfold lowerBound3; split_ifs <;> omega

theorem lowerBound4_pos (num : Nat) : 1 ≤ lowerBound4 num := by
  unfold lowerBound4; split_ifs <;> omega

theorem decomposeBy3_sound {num a_max : Nat} {d : List Nat}
    (hd : d ∈ decomposeBy3 num a_max) :
    Sound 3 num d ∧ (a_max ≠ 0 → ∀ x ∈ d, x ≤ a_max) := by
  unfold decomposeBy3 at hd
  split_ifs at hd with h0 h7
  · simp at hd
    subst hd; subst h0
    exact ⟨⟨rfl, by simp, by simp, by simp⟩, by simp⟩
  · simp at hd
  · rw [List.mem_flatMap] at hd
    obtain ⟨i, hi, hdi⟩ := hd
    rw [mem_countdown] at hi
    obtain ⟨hib, hia⟩ := hi
    simp only [body3, List.mem_map] at hdi
    obtain ⟨s, hs, rfl⟩ := hdi
    have hi1 : 1 ≤ i := le_trans (lowerBound3_pos num) hib
    have hile : i ≤ isqrt num := le_trans hia (clampTop_le_left _ _)
    have hisq : i * i ≤ num := by rw [isqrt_eq] at hile; exact Nat.le_sqrt.mp hile
    obtain ⟨⟨hsum, hsort, hpos, hlen⟩, hbound⟩ := decomposeBy2_sound hs
    have hbi : ∀ x ∈ s, x ≤ i := hbound (by omega)
    have hiam : a_max ≠ 0 → i ≤ a_max := fun hne =>
      le_trans hia (clampTop_le_right _ hne)
    refine ⟨⟨?_, ?_, ?_, ?_⟩, fun hne x hx => ?_⟩
    · rw [sumSq_cons, hsum]; omega
    · rw [List.sorted_cons]
      exact ⟨hbi, hsort⟩
    · intro x hx
      rcases List.mem_cons.mp hx with rfl | hx
      · omega
      · exact hpos x hx
    · simp; omega
    · rcases List.mem_cons.mp hx with rfl | hx
      · exact hiam hne
      · exact le_trans (hbi x hx) (hiam hne)

theorem decomposeBy4_sound {num a_max : Nat} {d : List Nat}
    (hd : d ∈ decomposeBy4 num a_max) :
    Sound 4 num d ∧ (a_max ≠ 0 → ∀ x ∈ d, x ≤ a_max) := by
  unfold decomposeBy4 at hd
  rw [List.mem_flatMap] at hd
  obtain ⟨i, hi, hdi⟩ := hd
  rw [mem_countdown] at hi
  obtain ⟨hib, hia⟩ := hi
  simp only [body4, List.mem_map] at hdi
  obtain ⟨s, hs, rfl⟩ := hdi
  have hi1 : 1 ≤ i := le_trans (lowerBound4_pos num) hib
  have hile : i ≤ isqrt num := le_trans hia (clampTop_le_left _ _)
  have hisq : i * i ≤ num := by rw [isqrt_eq] at hile; exact Nat.le_sqrt.mp hile
  obtain ⟨⟨hsum, hsort, hpos, hlen⟩, hbound⟩ := decomposeBy3_sound hs
  have hbi : ∀ x ∈ s, x ≤ i := hbound (by omega)
  have hiam : a_max ≠ 0 → i ≤ a_max := fun hne =>
    le_trans hia (clampTop_le_right _ hne)
  refine ⟨⟨?_, ?_, ?_, ?_⟩, fun hne x hx => ?_⟩
  · rw [sumSq_cons, hsum]; omega
  · rw [List.sorted_cons]
    exact ⟨hbi, hsort⟩
  · intro x hx
    rcases List.mem_cons.mp hx with rfl | hx
    · omega
    · exact hpos x hx
  · simp; omega
  · rcases List.mem_cons.mp hx with rfl | hx
    · exact hiam hne
    · exact le_trans (hbi x hx) (hiam hne)

theorem sq_zero_of_sum {x y num : Nat} (h : x * x + y * y = num) (h0 : num = 0) :
    x = 0 ∧ y = 0 := by
  constructor
  · rcases Nat.eq_zero_or_pos x with hx | hx
    · exact hx
    · exact absurd (Nat.mul_pos hx hx) (by omega)
  · rcases Nat.eq_zero_or_pos y with hy | hy
    · exact hy
    · exact absurd (Nat.mul_pos hy hy) (by omega)

/-- Completeness of the two-square search: every representation of `num` as an
ordered pair of squares respecting the upper bound is found. -/
theorem decomposeBy2_complete {num a_max x y : Nat} (hxy : y ≤ x)
    (hsum : x * x + y * y = num) (hbound : a_max = 0 ∨ x ≤ a_max) :
    tup2 x y ∈ decomposeBy2 num a_max := by
  have h4 : num % 4 ≠ 3 := two_sq_mod_four hsum
  by_cases h0 : num = 0
  · obtain ⟨rfl, rfl⟩ := sq_zero_of_sum hsum h0
    subst h0
    simp [decomposeBy2, tup2]
  by_cases h1 : num = 1
  · have hx1 : x = 1 ∧ y = 0 := by
      rcases Nat.eq_zero_or_pos x with hx | hx
      · exfalso
        have hy0 : y = 0 := by omega
        subst hx; subst hy0
        simp at hsum
        omega
      · have hxx : 1 ≤ x * x := Nat.mul_pos hx hx
        have hyy : y * y ≤ x * x := Nat.mul_le_mul hxy hxy
        have hx2 : x < 2 := by
          by_contra hc
          push_neg at hc
          have : 4 ≤ x * x := Nat.mul_le_mul hc hc
          omega
        constructor
        · omega
        · have hy0 : y * y = 0 := by omega
          rcases Nat.eq_zero_or_pos y with hy | hy
          · exact hy
          · exact absurd (Nat.mul_pos hy hy) (by omega)
    obtain ⟨rfl, rfl⟩ := hx1
    subst h1
    simp [decomposeBy2, tup2]
  have hnum2 : 2 ≤ num := by omega
  have hx1 : 1 ≤ x := by
    rcases Nat.eq_zero_or_pos x with hx | hx
    · exfalso
      have hy0 : y = 0 := by omega
      subst hx; subst hy0
      simp at hsum
      omega
    · exact hx
  have hbadf : ¬ hasBadPrime num = true := by
    intro hb
    obtain ⟨p, hp, hp4, hodd⟩ := (hasBadPrime_iff (by omega)).mp hb
    have hrep : ∃ a b : Nat, num = a ^ 2 + b ^ 2 :=
      ⟨x, y, by rw [Nat.pow_two, Nat.pow_two]; omega⟩
    have heven := Nat.eq_sq_add_sq_iff.mp hrep hp hp4
    rw [Nat.factorization_def num hp] at hodd
    exact (Nat.not_odd_iff_even.mpr heven) hodd
  have hyx : y * y ≤ x * x := Nat.mul_le_mul hxy hxy
  unfold decomposeBy2
  rw [if_neg h4, if_neg h0, if_neg h1, if_neg hbadf, List.mem_flatMap]
  refine ⟨x, ?_, ?_⟩
  · rw [mem_countdown]
    constructor
    · unfold lowerBound2
      rw [isqrt_eq]
      have hlt : Nat.sqrt (num / 2 - 1) < x := Nat.sqrt_lt.mpr (by omega)
      omega
    · have hxsq : x ≤ isqrt num := by
        rw [isqrt_eq]
        exact Nat.le_sqrt.mpr (by omega)
      unfold clampTop
      split_ifs with hcl
      · rcases hbound with h | h
        · exact absurd h hcl.1
        · exact h
      · exact hxsq
  · simp only [body2]
    by_cases hy : y = 0
    · subst hy
      have hxx : x * x = num := by simpa using hsum
      have hsub : num - x * x = 0 := by omega
      rw [if_pos hsub]
      have hxne : ¬ x = 0 := by omega
      simp [tup2, hxne]
    · have hyy1 : 1 ≤ y * y := Nat.mul_pos (by omega) (by omega)
      have hsub : num - x * x = y * y := by omega
      have hyyne : ¬ y * y = 0 := by omega
      rw [hsub, if_neg hyyne, isqrt_eq, Nat.sqrt_eq, if_pos rfl]
      simp [tup2, hy]

/-- Completeness of the three-square search, relying on the feasibility filter
rejecting only numbers with no three-square representation. -/
theorem decomposeBy3_complete {num a_max x y z : Nat} (hxy : y ≤ x) (hyz : z ≤ y)
    (hsum : x * x + y * y + z * z = num) (hbound : a_max = 0 ∨ x ≤ a_max) :
    tup3 x y z ∈ decomposeBy3 num a_max := by
  by_cases h0 : num = 0
  · have hx0 : x = 0 := by
      rcases Nat.eq_zero_or_pos x with hx | hx
      · exact hx
      · exact absurd (Nat.mul_pos hx hx) (by omega)
    subst h0
    simp [decomposeBy3, tup3, hx0]
  have hx1 : 1 ≤ x := by
    rcases Nat.eq_zero_or_pos x with hx | hx
    · exfalso
      have hy0 : y = 0 := by omega
      have hz0 : z = 0 := by omega
      subst hx; subst hy0; subst hz0
      simp at hsum
      omega
    · exact hx
  have h7 : ¬ strip4 num % 8 = 7 := fun h7 =>
    strip4_filter_sound (by omega) h7 ⟨x, y, z, hsum⟩
  have hyx : y * y ≤ x * x := Nat.mul_le_mul hxy hxy
  have hzx : z * z ≤ x * x := Nat.mul_le_mul (le_trans hyz hxy) (le_trans hyz hxy)
  unfold decomposeBy3
  rw [if_neg h0, if_neg h7, List.mem_flatMap]
  refine ⟨x, ?_, ?_⟩
  · rw [mem_countdown]
    constructor
    · unfold lowerBound3
      split_ifs with hc
      · rw [isqrt_eq]
        have hlt : Nat.sqrt (num / 3 - 1) < x := Nat.sqrt_lt.mpr (by omega)
        omega
      · omega
    · have hxsq : x ≤ isqrt num := by
        rw [isqrt_eq]
        exact Nat.le_sqrt.mpr (by omega)
      unfold clampTop
      split_ifs with hcl
      · rcases hbound with h | h
        · exact absurd h hcl.1
        · exact h
      · exact hxsq
  · simp only [body3, List.mem_map, tup3, if_neg (by omega : ¬ x = 0)]
    exact ⟨tup2 y z, decomposeBy2_complete hyz (by omega) (Or.inr hxy), rfl⟩

/-- Completeness of the four-square search. -/
theorem decomposeBy4_complete {num a_max w x y z : Nat} (hwx : x ≤ w) (hxy : y ≤ x)
    (hyz : z ≤ y) (hsum : w * w + x * x + y * y + z * z = num) (hnum : 0 < num)
    (hbound : a_max = 0 ∨ w ≤ a_max) :
    tup4 w x y z ∈ decomposeBy4 num a_max := by
  have hw1 : 1 ≤ w := by
    rcases Nat.eq_zero_or_pos w with hw | hw
    · exfalso
      have hx0 : x = 0 := by omega
      have hy0 : y = 0 := by omega
      have hz0 : z = 0 := by omega
      subst hw; subst hx0; subst hy0; subst hz0
      simp at hsum
      omega
    · exact hw
  have hxw : x * x ≤ w * w := Nat.mul_le_mul hwx hwx
  have hyw : y * y ≤ w * w := Nat.mul_le_mul (le_trans hxy hwx) (le_trans hxy hwx)
  have hzw : z * z ≤ w * w :=
    Nat.mul_le_mul (le_trans (le_trans hyz hxy) hwx) (le_trans (le_trans hyz hxy) hwx)
  unfold decomposeBy4
  rw [List.mem_flatMap]
  refine ⟨w, ?_, ?_⟩
  · rw [mem_countdown]
    constructor
    · unfold lowerBound4
      split_ifs with hc
      · rw [isqrt_eq]
        have hlt : Nat.sqrt (num / 4 - 1) < w := Nat.sqrt_lt.mpr (by omega)
        omega
      · omega
    · have hwsq : w ≤ isqrt num := by
        rw [isqrt_eq]
        exact Nat.le_sqrt.mpr (by omega)
      unfold clampTop
      split_ifs with hcl
      · rcases hbound with h | h
        · exact absurd h hcl.1
        · exact h
      · exact hwsq
  · simp only [body4, List.mem_map, tup4, if_neg (by omega : ¬ w = 0)]
    exact ⟨tup3 x y z, decomposeBy3_complete hxy hyz (by omega) (Or.inr hwx), rfl⟩

/-- Claim C1: for every `num` and upper bound `a_max` (0 = unbounded), every
tuple returned by `decomposeBy2`, `decomposeBy3` or `decomposeBy4` sums in
squares exactly to `num`, contains only positive entries (zero summands are
never stored), is sorted non-ascending, and has length at most 2, 3 or 4
respectively. -/
theorem decomposers_sound (num a_max : Nat) :
    (∀ d ∈ decomposeBy2 num a_max, Sound 2 num d) ∧
    (∀ d ∈ decomposeBy3 num a_max, Sound 3 num d) ∧
    (∀ d ∈ decomposeBy4 num a_max, Sound 4 num d) :=
  ⟨fun _ hd => (decomposeBy2_sound hd).1, fun _ hd => (decomposeBy3_sound hd).1,
    fun _ hd => (decomposeBy4_sound hd).1⟩

theorem decomposers_sound_witness :
    [2, 1] ∈ decomposeBy2 5 0 ∧ Sound 2 5 [2, 1] :=
  ⟨by decide, (decomposers_sound 5 0).1 [2, 1] (by decide)⟩

/-- Claim C2: `decomposeBy2 N` (no upper bound) is empty exactly when `N ≥ 2`
and some prime `p ≡ 3 (mod 4)` divides `N` to an odd power; the base cases
return `[()]` for `N = 0` and `[(1,)]` for `N = 1`. -/
theorem decomposeBy2_empty_iff (N : Nat) :
    (decomposeBy2 N 0 = [] ↔
      2 ≤ N ∧ ∃ p, p.Prime ∧ p % 4 = 3 ∧ Odd (N.factorization p)) ∧
    decomposeBy2 0 0 = [[]] ∧ decomposeBy2 1 0 = [[1]] := by
  refine ⟨⟨?_, ?_⟩, by decide, by decide⟩
  · intro hemp
    by_cases h0 : N = 0
    · subst h0; simp [decomposeBy2] at hemp
    by_cases h1 : N = 1
    · subst h1; simp [decomposeBy2] at hemp
    refine ⟨by omega, ?_⟩
    by_contra hno
    have hall : ∀ q : Nat, q.Prime → q % 4 = 3 → Even (padicValNat q N) := by
      intro q hq hq4
      rw [← Nat.factorization_def N hq]
      rcases Nat.even_or_odd (N.factorization q) with he | ho
      · exact he
      · exact absurd ⟨q, hq, hq4, ho⟩ hno
    obtain ⟨a, b, hab⟩ := Nat.eq_sq_add_sq_iff.mpr fun hq hq4 => hall _ hq hq4
    rw [Nat.pow_two, Nat.pow_two] at hab
    rcases le_total b a with hba | hab'
    · have := decomposeBy2_complete hba hab.symm (Or.inl rfl)
      rw [hemp] at this
      simp at this
    · have := decomposeBy2_complete hab' (show b * b + a * a = N from by omega) (Or.inl rfl)
      rw [hemp] at this
      simp at this
  · rintro ⟨hN2, p, hp, hp4, hodd⟩
    have hbad : hasBadPrime N = true := (hasBadPrime_iff (by omega)).mpr ⟨p, hp, hp4, hodd⟩
    unfold decomposeBy2
    by_cases h4 : N % 4 = 3
    · rw [if_pos h4]
    · rw [if_neg h4, if_neg (by omega : ¬ N = 0), if_neg (by omega : ¬ N = 1), if_pos hbad]

/-- Claim C4: `decomposeBy4 num` (no upper bound) is empty exactly for
`num = 0`; for every `num ≥ 1` Lagrange's theorem provides a representation
and the bounded search finds it. -/
theorem decomposeBy4_empty_iff (num : Nat) : decomposeBy4 num 0 = [] ↔ num = 0 := by
  constructor
  · intro hemp
    by_contra hne
    have hpos : 0 < num := Nat.pos_of_ne_zero hne
    obtain ⟨a, b, c, d, habcd⟩ := Nat.sum_four_squares num
    simp only [Nat.pow_two] at habcd
    obtain ⟨w, x, y, z, hwx, hxy, hyz, hsum⟩ := exists_sorted_quad a b c d
    have hmem := decomposeBy4_complete hwx hxy hyz (by omega) hpos (Or.inl rfl)
    rw [hemp] at hmem
    simp at hmem
  · rintro rfl
    decide

/-- Claim C6, counterexample: `num = 9` reaches the two-square search phase
(`9 ≥ 2`, `9 % 4 ≠ 3`, no prime `≡ 3 (mod 4)` to an odd power), but the lower
bound `isqrt((9 >> 1) - 1) + 1 = 2` is not the least `k` with `2*k*k ≥ 9`
(it is not such a `k` at all: `2*2*2 = 8 < 9`; the least one is 3). -/
theorem lowerBound2_least_counterexample :
    (2 ≤ 9 ∧ 9 % 4 ≠ 3 ∧ hasBadPrime 9 = false) ∧
    lowerBound2 9 = 2 ∧ ¬ (9 ≤ 2 * (lowerBound2 9 * lowerBound2 9)) := by
  decide

/-- Claim C6, amended: for every `num ≥ 2` the candidates examined by the
two-square search are exactly the `i` with `lowerBound2 num ≤ i ≤ a` where
`a = isqrt(num)` clamped to `a_max`, and `lowerBound2 num` is the least `k`
with `k*k ≥ num / 2` (equivalently the least `k` with `2*k*k ≥ num - num % 2`;
for odd `num = 2*k*k + 1` this is one less than the least `k` with
`2*k*k ≥ num`). -/
theorem lowerBound2_least (num : Nat) (h : 2 ≤ num) :
    (num / 2 ≤ lowerBound2 num * lowerBound2 num ∧
      ∀ k, num / 2 ≤ k * k → lowerBound2 num ≤ k) ∧
    ∀ a_max i, i ∈ countdown (clampTop (isqrt num) a_max) (lowerBound2 num) ↔
      lowerBound2 num ≤ i ∧ i ≤ clampTop (isqrt num) a_max := by
  refine ⟨⟨?_, ?_⟩, fun a_max i => mem_countdown⟩
  · unfold lowerBound2
    rw [isqrt_eq]
    have hlt : num / 2 - 1 <
        (Nat.sqrt (num / 2 - 1) + 1) * (Nat.sqrt (num / 2 - 1) + 1) :=
      Nat.lt_succ_sqrt (num / 2 - 1)
    omega
  · intro k hk
    unfold lowerBound2
    rw [isqrt_eq]
    have := Nat.sqrt_lt.mpr (show num / 2 - 1 < k * k from by omega)
    omega

theorem lowerBound2_least_witness :
    10 / 2 ≤ lowerBound2 10 * lowerBound2 10 ∧ lowerBound2 10 ≤ 3 :=
  ⟨(lowerBound2_least 10 (by decide)).1.1,
    (lowerBound2_least 10 (by decide)).1.2 3 (by decide)⟩

theorem clampTop_zero (a0 : Nat) : clampTop a0 0 = a0 := by
  simp [clampTop]

/-- Claim C10: `a_max = 0` is the "no bound" sentinel: with it, each decomposer
coincides with its unclamped variant; and the lower search bounds are always at
least 1, so the recursive calls (`a_max = i ≥ lower bound`) never pass the
sentinel value 0 as a genuine bound. -/
theorem a_max_zero_no_bound (num : Nat) :
    (decomposeBy2 num 0 = decomposeBy2NB num ∧
      decomposeBy3 num 0 = decomposeBy3NB num ∧
      decomposeBy4 num 0 = decomposeBy4NB num) ∧
    (∀ a_max i, i ∈ countdown (clampTop (isqrt num) a_max) (lowerBound3 num) → 1 ≤ i) ∧
    (∀ a_max i, i ∈ countdown (clampTop (isqrt num) a_max) (lowerBound4 num) → 1 ≤ i) := by
  refine ⟨⟨?_, ?_, ?_⟩, ?_, ?_⟩
  · unfold decomposeBy2 decomposeBy2NB
    rw [clampTop_zero]
  · unfold decomposeBy3 decomposeBy3NB
    rw [clampTop_zero]
  · unfold decomposeBy4 decomposeBy4NB
    rw [clampTop_zero]
  · intro a_max i hi
    have := (mem_countdown.mp hi).1
    have := lowerBound3_pos num
    omega
  · intro a_max i hi
    have := (mem_countdown.mp hi).1
    have := lowerBound4_pos num
    omega

theorem nodup_flatMap_heads {l : List Nat} {f : Nat → List (List Nat)}
    (hl : l.Nodup) (hf : ∀ i, (f i).Nodup) (hh : ∀ i t, t ∈ f i → ∃ r, t = i :: r) :
    (l.flatMap f).Nodup := by
  rw [List.nodup_flatMap]
  refine ⟨fun i _ => hf i, ?_⟩
  refine hl.imp ?_
  intro a b hne
  simp only [Function.onFun]
  intro t hta htb
  obtain ⟨r, rfl⟩ := hh a t hta
  obtain ⟨r2, he⟩ := hh b _ htb
  injection he with h1 _
  exact hne h1

theorem body2_nodup (num i : Nat) : (body2 num i).Nodup := by
  simp only [body2]
  split_ifs <;> simp

theorem body2_head {num i : Nat} {t : List Nat} (ht : t ∈ body2 num i) :
    ∃ r, t = i :: r := by
  rcases mem_body2 ht with ⟨_, rfl⟩ | ⟨_, _, rfl⟩
  · exact ⟨[], rfl⟩
  · exact ⟨[isqrt (num - i * i)], rfl⟩

theorem decomposeBy2_nodup (num a_max : Nat) : (decomposeBy2 num a_max).Nodup := by
  unfold decomposeBy2
  split_ifs <;> try simp
  exact nodup_flatMap_heads (countdown_nodup _ _) (body2_nodup num) fun i t => body2_head

theorem cons_injective (i : Nat) : Function.Injective fun s : List Nat => i :: s :=
  fun s t h => by simpa using h

theorem decomposeBy3_nodup (num a_max : Nat) : (decomposeBy3 num a_max).Nodup := by
  unfold decomposeBy3
  split_ifs <;> try simp
  refine nodup_flatMap_heads (countdown_nodup _ _) (fun i => ?_) fun i t ht => ?_
  · exact (decomposeBy2_nodup _ _).map (cons_injective i)
  · simp only [body3, List.mem_map] at ht
    obtain ⟨s, _, rfl⟩ := ht
    exact ⟨s, rfl⟩

theorem decomposeBy4_nodup (num a_max : Nat) : (decomposeBy4 num a_max).Nodup := by
  unfold decomposeBy4
  refine nodup_flatMap_heads (countdown_nodup _ _) (fun i => ?_) fun i t ht => ?_
  · exact (decomposeBy3_nodup _ _).map (cons_injective i)
  · simp only [body4, List.mem_map] at ht
    obtain ⟨s, _, rfl⟩ := ht
    exact ⟨s, rfl⟩

/-- Claim C8: for every `num`, every upper bound and every arity, the returned
decomposition list contains no repeated tuple. -/
theorem decomposers_no_duplicates (num a_max : Nat) :
    (decomposeBy2 num a_max).Nodup ∧ (decomposeBy3 num a_max).Nodup ∧
      (decomposeBy4 num a_max).Nodup :=
  ⟨decomposeBy2_nodup num a_max, decomposeBy3_nodup num a_max,
    decomposeBy4_nodup num a_max⟩

theorem collectChecked_eq {f : Nat → Option (List (List Nat))} {g : Nat → List (List Nat)} :
    ∀ l : List Nat, (∀ i ∈ l, f i = some (g i)) →
      collectChecked f l = some (l.flatMap g)
  | [] => fun _ => rfl
  | i :: is => fun h => by
    have h1 : f i = some (g i) := h i (List.mem_cons_self i is)
    have h2 : collectChecked f is = some (is.flatMap g) :=
      collectChecked_eq is fun j hj => h j (List.mem_cons_of_mem i hj)
    simp [collectChecked, h1, h2]

theorem decomposeBy2Checked_eq (num a_max : Nat) :
    decomposeBy2Checked num a_max = some (decomposeBy2 num a_max) := by
  unfold decomposeBy2Checked decomposeBy2
  split_ifs with h4 h0 h1 hb
  · rfl
  · rfl
  · rfl
  · rfl
  · have hnum2 : 2 ≤ num := by omega
    have hcast : (num : Int) / 2 - 1 = ((num / 2 - 1 : Nat) : Int) := by omega
    rw [hcast]
    unfold isqrtChecked
    rw [if_neg (by omega : ¬ ((num / 2 - 1 : Nat) : Int) < 0)]
    simp [lowerBound2]

theorem decomposeBy3Checked_eq (num a_max : Nat) :
    decomposeBy3Checked num a_max = some (decomposeBy3 num a_max) := by
  unfold decomposeBy3Checked decomposeBy3
  split_ifs with h0 h7 hc
  · rfl
  · rfl
  · have hcast : (num : Int) / 3 - 1 = ((num / 3 - 1 : Nat) : Int) := by omega
    have hlb : lowerBound3 num = isqrt (num / 3 - 1) + 1 := by
      unfold lowerBound3
      rw [if_pos hc]
    rw [hcast, hlb]
    unfold isqrtChecked
    rw [if_neg (by omega : ¬ ((num / 3 - 1 : Nat) : Int) < 0)]
    simp only [Int.toNat_natCast, Option.map_some', Option.some_bind]
    exact collectChecked_eq _ fun i hi => by
      rw [decomposeBy2Checked_eq]
      simp [body3]
  · have hlb : lowerBound3 num = 1 := by
      unfold lowerBound3
      rw [if_neg hc]
    rw [hlb]
    simp only [Option.some_bind]
    exact collectChecked_eq _ fun i hi => by
      rw [decomposeBy2Checked_eq]
      simp [body3]

theorem decomposeBy4Checked_eq (num a_max : Nat) :
    decomposeBy4Checked num a_max = some (decomposeBy4 num a_max) := by
  unfold decomposeBy4Checked decomposeBy4
  have hb : (if 4 ≤ num then (isqrtChecked ((num : Int) / 4 - 1)).map (· + 1) else some 1)
      = some (lowerBound4 num) := by
    unfold lowerBound4
    split_ifs with hc
    · have hcast : (num : Int) / 4 - 1 = ((num / 4 - 1 : Nat) : Int) := by omega
      rw [hcast]
      unfold isqrtChecked
      rw [if_neg (by omega : ¬ ((num / 4 - 1 : Nat) : Int) < 0)]
      simp
    · rfl
  rw [hb]
  simp only [Option.some_bind]
  exact collectChecked_eq _ fun i hi => by
    rw [decomposeBy3Checked_eq]
    simp [body4]

/-- Claim C9: no call raises: evaluating the `isqrt` arguments
`(num >> 1) - 1`, `num // 3 - 1` and `(num >> 2) - 1` in `Int` exactly as
Python does never produces a negative number (the guards `num >= 3`,
`num >= 4` and the early returns for `num < 2` intercept the small inputs), so
each checked decomposer always terminates normally with the same result as the
total model. -/
theorem decomposers_never_raise (num a_max : Nat) :
    decomposeBy2Checked num a_max = some (decomposeBy2 num a_max) ∧
    decomposeBy3Checked num a_max = some (decomposeBy3 num a_max) ∧
    decomposeBy4Checked num a_max = some (decomposeBy4 num a_max) :=
  ⟨decomposeBy2Checked_eq num a_max, decomposeBy3Checked_eq num a_max,
    decomposeBy4Checked_eq num a_max⟩

theorem no_rep_of_bad {n : Nat} (hn : 2 ≤ n) (hb : hasBadPrime n = true) :
    ¬ ∃ x y, x * x + y * y = n := by
  rintro ⟨x, y, hxy⟩
  obtain ⟨p, hp, hp4, hodd⟩ := (hasBadPrime_iff (by omega)).mp hb
  have hrep : ∃ a b : Nat, n = a ^ 2 + b ^ 2 :=
    ⟨x, y, by rw [Nat.pow_two, Nat.pow_two]; omega⟩
  have heven := Nat.eq_sq_add_sq_iff.mp hrep hp hp4
  rw [Nat.factorization_def n hp] at hodd
  exact (Nat.not_odd_iff_even.mpr heven) hodd

theorem pure_empty_of_no_rep {n a_max : Nat} (h : ¬ ∃ x y, x * x + y * y = n) :
    decomposeBy2 n a_max = [] := by
  cases hres : decomposeBy2 n a_max with
  | nil => rfl
  | cons d rest =>
    exfalso
    have hd : d ∈ decomposeBy2 n a_max := by
      rw [hres]
      exact List.mem_cons_self d rest
    obtain ⟨⟨hsum, _, _, hlen⟩, _⟩ := decomposeBy2_sound hd
    apply h
    rcases d with _ | ⟨a, _ | ⟨b, _ | ⟨c, r⟩⟩⟩
    · exact ⟨0, 0, by simp [sumSq] at hsum ⊢; omega⟩
    · exact ⟨a, 0, by simp [sumSq] at hsum ⊢; omega⟩
    · exact ⟨a, b, by simp [sumSq] at hsum ⊢; omega⟩
    · simp at hlen

theorem decomposeBy2M_spec {num a_max : Nat} {cache : List Nat} (hc : CacheOK cache) :
    (decomposeBy2M num a_max cache).1 = decomposeBy2 num a_max ∧
    CacheOK (decomposeBy2M num a_max cache).2 := by
  unfold decomposeBy2M
  split_ifs with h4 hin h0 h1 hbad
  · exact ⟨by simp [decomposeBy2, h4], hc⟩
  · exact ⟨(pure_empty_of_no_rep (hc num hin)).symm, hc⟩
  · subst h0
    exact ⟨by simp [decomposeBy2], hc⟩
  · subst h1
    exact ⟨by simp [decomposeBy2], hc⟩
  · refine ⟨by simp [decomposeBy2, h4, h0, h1, hbad], ?_⟩
    intro n hn
    rcases List.mem_cons.mp hn with rfl | hn
    · exact no_rep_of_bad (by omega) hbad
    · exact hc n hn
  · exact ⟨by simp [decomposeBy2, h4, h0, h1, hbad], hc⟩

theorem foldl_loop3 {num : Nat} (l : List Nat) :
    ∀ (init : List (List Nat)) (cache : List Nat), CacheOK cache →
      (l.foldl (fun acc i =>
          let r := decomposeBy2M (num - i * i) i acc.2
          (acc.1 ++ r.1.map fun s => i :: s, r.2)) (init, cache)).1
        = init ++ l.flatMap (body3 num) ∧
      CacheOK (l.foldl (fun acc i =>
          let r := decomposeBy2M (num - i * i) i acc.2
          (acc.1 ++ r.1.map fun s => i :: s, r.2)) (init, cache)).2 := by
  induction l with
  | nil => exact fun init cache hc => ⟨by simp, hc⟩
  | cons i is ih =>
    intro init cache hc
    obtain ⟨h1, h2⟩ := @decomposeBy2M_spec (num - i * i) i cache hc
    simp only [List.foldl_cons]
    obtain ⟨ha, hb⟩ :=
      ih (init ++ ((decomposeBy2M (num - i * i) i cache).1.map fun s => i :: s)) _ h2
    refine ⟨?_, hb⟩
    rw [ha, h1]
    simp [body3, List.append_assoc]

theorem decomposeBy3M_spec {num a_max : Nat} {cache : List Nat} (hc : CacheOK cache) :
    (decomposeBy3M num a_max cache).1 = decomposeBy3 num a_max ∧
    CacheOK (decomposeBy3M num a_max cache).2 := by
  unfold decomposeBy3M decomposeBy3
  split_ifs with h0 h7
  · exact ⟨rfl, hc⟩
  · exact ⟨rfl, hc⟩
  · obtain ⟨h1, h2⟩ :=
      @foldl_loop3 num (countdown (clampTop (isqrt num) a_max) (lowerBound3 num))
        [] cache hc
    exact ⟨by rw [h1]; simp, h2⟩

theorem foldl_loop4 {num : Nat} (l : List Nat) :
    ∀ (init : List (List Nat)) (cache : List Nat), CacheOK cache →
      (l.foldl (fun acc i =>
          let r := decomposeBy3M (num - i * i) i acc.2
          (acc.1 ++ r.1.map fun s => i :: s, r.2)) (init, cache)).1
        = init ++ l.flatMap (body4 num) ∧
      CacheOK (l.foldl (fun acc i =>
          let r := decomposeBy3M (num - i * i) i acc.2
          (acc.1 ++ r.1.map fun s => i :: s, r.2)) (init, cache)).2 := by
  induction l with
  | nil => exact fun init cache hc => ⟨by simp, hc⟩
  | cons i is ih =>
    intro init cache hc
    obtain ⟨h1, h2⟩ := @decomposeBy3M_spec (num - i * i) i cache hc
    simp only [List.foldl_cons]
    obtain ⟨ha, hb⟩ :=
      ih (init ++ ((decomposeBy3M (num - i * i) i cache).1.map fun s => i :: s)) _ h2
    refine ⟨?_, hb⟩
    rw [ha, h1]
    simp [body4, List.append_assoc]

theorem decomposeBy4M_spec {num a_max : Nat} {cache : List Nat} (hc : CacheOK cache) :
    (decomposeBy4M num a_max cache).1 = decomposeBy4 num a_max ∧
    CacheOK (decomposeBy4M num a_max cache).2 := by
  unfold decomposeBy4M decomposeBy4
  obtain ⟨h1, h2⟩ :=
    @foldl_loop4 num (countdown (clampTop (isqrt num) a_max) (lowerBound4 num))
      [] cache hc
  exact ⟨by rw [h1]; simp, h2⟩

/-- Claim C7: the `noSum2sq` cache never changes results, only performance:
every cache state reachable by prior calls contains only integers with no
two-square representation, and with any such cache each call returns exactly
what the cache-free model returns. -/
theorem cache_only_optimizes :
    ∀ cache, Reachable cache → CacheOK cache ∧
      ∀ num a_max,
        (decomposeBy2M num a_max cache).1 = decomposeBy2 num a_max ∧
        (decomposeBy3M num a_max cache).1 = decomposeBy3 num a_max ∧
        (decomposeBy4M num a_max cache).1 = decomposeBy4 num a_max := by
  have hok : ∀ cache, Reachable cache → CacheOK cache := by
    intro cache hr
    induction hr with
    | init => intro n hn; simp at hn
    | step2 num a_max hr ih => exact (decomposeBy2M_spec ih).2
    | step3 num a_max hr ih => exact (decomposeBy3M_spec ih).2
    | step4 num a_max hr ih => exact (decomposeBy4M_spec ih).2
  intro cache hr
  have hc := hok cache hr
  exact ⟨hc, fun num a_max =>
    ⟨(decomposeBy2M_spec hc).1, (decomposeBy3M_spec hc).1, (decomposeBy4M_spec hc).1⟩⟩

theorem cache_only_optimizes_witness :
    CacheOK ([] : List Nat) ∧ (decomposeBy2M 21 0 []).1 = decomposeBy2 21 0 :=
  ⟨(cache_only_optimizes [] Reachable.init).1,
    ((cache_only_optimizes [] Reachable.init).2 21 0).1⟩

